import Mathlib

/-!
Verification of the HiNote highlight-extraction engine
(`src/services/HighlightService.ts`) and annotation store (`src/types.ts`,
class `CommentStore`) against the natural-language specification.

Strings are modelled as `List Char`.  The JavaScript regular expressions are
embedded through a small backtracking matcher (`runRE`) that reproduces the
ECMAScript semantics needed by the three highlight patterns: ordered
alternation, greedy and lazy repetition with the empty-iteration guard, the
capture-group reset at the start of every repetition of a quantified atom,
and leftmost-match scanning.  All definitions are executable.
-/

namespace HiNote

abbrev Str := List Char

/-- JavaScript `\s`: WhiteSpace and LineTerminator characters. -/
def wsChar (c : Char) : Bool :=
  c = ' ' || c = '\t' || c = '\n' || c = '\r' || c = '\x0b' || c = '\x0c' ||
  c = ' ' || c = ' ' ||
  (' ' ≤ c && c ≤ ' ') ||
  c = ' ' || c = ' ' || c = ' ' || c = ' ' ||
  c = '　' || c = '﻿'

/-- JavaScript `.` (no dotall flag): any character except a LineTerminator. -/
def dotChar (c : Char) : Bool :=
  !(c = '\n' || c = '\r' || c = ' ' || c = ' ')

/-- JavaScript `\d`. -/
def digitChar (c : Char) : Bool := '0' ≤ c && c ≤ '9'

/-- `[0-9a-fA-F]`. -/
def hexChar (c : Char) : Bool :=
  digitChar c || ('a' ≤ c && c ≤ 'f') || ('A' ≤ c && c ≤ 'F')

/-- `[0-9.]`. -/
def numDotChar (c : Char) : Bool := digitChar c || c = '.'

/-- `["']`. -/
def quoteChar (c : Char) : Bool := c = '"' || c = '\''

/-- `[^"]`. -/
def notDqChar (c : Char) : Bool := !(c = '"')

/-- `[^"']`. -/
def notQuoteChar (c : Char) : Bool := !quoteChar c

/-- `[^)]`. -/
def notParenChar (c : Char) : Bool := !(c = ')')

/-- JavaScript `String.prototype.trim`: strip `\s` from both ends. -/
def jsTrim (l : Str) : Str :=
  ((l.dropWhile wsChar).reverse.dropWhile wsChar).reverse

/-- Capture state: group index mapped to the captured characters. -/
abbrev Caps := List (Nat × Str)

def capGet (caps : Caps) (i : Nat) : Option Str :=
  (caps.find? (fun p => p.1 = i)).map (·.2)

def capSet (caps : Caps) (i : Nat) (v : Str) : Caps :=
  (i, v) :: caps.filter (fun p => p.1 ≠ i)

def capClear (caps : Caps) (is : List Nat) : Caps :=
  caps.filter (fun p => !(is.contains p.1))

/-- Regular-expression syntax used by the three highlight patterns. -/
inductive RE where
  | str : Str → RE
  | cls : (Char → Bool) → RE
  | seq : RE → RE → RE
  | alt : RE → RE → RE
  | starG : RE → RE
  | starL : RE → RE
  | optG : RE → RE
  | group : Nat → RE → RE

/-- The capture-group indices occurring in a pattern (cleared on each
repetition of an enclosing quantified atom, as in ECMAScript). -/
def RE.groupIdxs : RE → List Nat
  | .str _ => []
  | .cls _ => []
  | .seq r1 r2 => r1.groupIdxs ++ r2.groupIdxs
  | .alt r1 r2 => r1.groupIdxs ++ r2.groupIdxs
  | .starG r => r.groupIdxs
  | .starL r => r.groupIdxs
  | .optG r => r.groupIdxs
  | .group i r => i :: r.groupIdxs

/-- Backtracking matcher in continuation-passing style.  Alternatives are
tried in order and the first success wins, which is exactly the ECMAScript
priority order; greedy operators try the longer attempt first, lazy ones the
continuation first.  A repetition whose body consumed nothing fails that
iteration path (the ECMAScript empty-match guard).  `fuel` bounds the call
depth structurally; every recursive call decrements it, and callers supply
enough fuel for the depth actually reachable on their input. -/
def runRE : Nat → RE → Str → Caps → (Str → Caps → Option (Str × Caps)) →
    Option (Str × Caps)
  | 0, _, _, _, _ => none
  | _ + 1, .str pat, s, caps, k =>
      if pat.isPrefixOf s then k (s.drop pat.length) caps else none
  | _ + 1, .cls p, s, caps, k =>
      match s with
      | [] => none
      | c :: rest => if p c then k rest caps else none
  | fuel + 1, .seq r1 r2, s, caps, k =>
      runRE fuel r1 s caps (fun s' c' => runRE fuel r2 s' c' k)
  | fuel + 1, .alt r1 r2, s, caps, k =>
      (runRE fuel r1 s caps k).orElse (fun _ => runRE fuel r2 s caps k)
  | fuel + 1, .starG r, s, caps, k =>
      (runRE fuel r s (capClear caps r.groupIdxs) (fun s' c' =>
        if s'.length < s.length then runRE fuel (.starG r) s' c' k
        else none)).orElse (fun _ => k s caps)
  | fuel + 1, .starL r, s, caps, k =>
      (k s caps).orElse (fun _ =>
        runRE fuel r s (capClear caps r.groupIdxs) (fun s' c' =>
          if s'.length < s.length then runRE fuel (.starL r) s' c' k
          else none))
  | fuel + 1, .optG r, s, caps, k =>
      (runRE fuel r s (capClear caps r.groupIdxs) k).orElse (fun _ => k s caps)
  | fuel + 1, .group i r, s, caps, k =>
      runRE fuel r s caps (fun s' c' =>
        k s' (capSet c' i (s.take (s.length - s'.length))))

def lit (s : String) : RE := .str s.toList

/-- `\s*`. -/
def ws0 : RE := .starG (.cls wsChar)

/-- `\s+`. -/
def ws1 : RE := .seq (.cls wsChar) (.starG (.cls wsChar))

/-- one-or-more of a character class (greedy `+`). -/
def plusCls (p : Char → Bool) : RE := .seq (.cls p) (.starG (.cls p))

/-- `(.*?)` body: lazy repetition of `.`. -/
def lazyDots : RE := .starL (.cls dotChar)

/-- `rgba\(\d+,\s*\d+,\s*\d+,\s*[0-9.]+\)`. -/
def rgbaRE : RE :=
  .seq (lit "rgba(") (.seq (plusCls digitChar) (.seq (lit ",") (.seq ws0
    (.seq (plusCls digitChar) (.seq (lit ",") (.seq ws0
      (.seq (plusCls digitChar) (.seq (lit ",") (.seq ws0
        (.seq (plusCls numDotChar) (lit ")")))))))))))

/-- `#[0-9a-fA-F]{3,8}`: three required hex digits then five greedy optional
ones (same match set and priority order as the bounded repetition). -/
def hexColorRE : RE :=
  .seq (lit "#") (.seq (.cls hexChar) (.seq (.cls hexChar) (.seq (.cls hexChar)
    (.seq (.optG (.cls hexChar)) (.seq (.optG (.cls hexChar))
      (.seq (.optG (.cls hexChar)) (.seq (.optG (.cls hexChar))
        (.optG (.cls hexChar)))))))))

/-- `var\(--[^)]+\)`. -/
def varRE : RE := .seq (lit "var(--") (.seq (plusCls notParenChar) (lit ")"))

/-- The color alternation shared by the mark and span patterns. -/
def colorRE : RE := .alt rgbaRE (.alt hexColorRE varRE)

/-- `\s+class="[^"]*"`. -/
def attrClassRE : RE :=
  .seq ws1 (.seq (lit "class=\"") (.seq (.starG (.cls notDqChar)) (lit "\"")))

/-- `\s+style=["'][^"']*?background(?:-color)?:\s*(COLOR)[^"']*["']`,
with the color captured as group `g`. -/
def attrStyleRE (g : Nat) : RE :=
  .seq ws1 (.seq (lit "style=") (.seq (.cls quoteChar)
    (.seq (.starL (.cls notQuoteChar)) (.seq (lit "background")
      (.seq (.optG (lit "-color")) (.seq (lit ":") (.seq ws0
        (.seq (.group g colorRE) (.seq (.starG (.cls notQuoteChar))
          (.cls quoteChar))))))))))

/-- `HighlightService.DOUBLE_EQUALS_REGEX`: `==\s*(.*?)\s*==`
(inner text captured as group 1). -/
def doubleEqualsRE : RE :=
  .seq (lit "==") (.seq ws0 (.seq (.group 1 lazyDots) (.seq ws0 (lit "=="))))

/-- `HighlightService.MARK_TAG_REGEX`:
`<mark(?:\s+class="[^"]*"|\s+style=["'][^"']*?background(?:-color)?:\s*(C)[^"']*["'])*\s*>(.*?)<\/mark>`
(color group 2, inner text group 3, the numbering of the combined pattern). -/
def markTagRE : RE :=
  .seq (lit "<mark") (.seq (.starG (.alt attrClassRE (attrStyleRE 2)))
    (.seq ws0 (.seq (lit ">") (.seq (.group 3 lazyDots) (lit "</mark>")))))

/-- `HighlightService.SPAN_TAG_REGEX`:
`<span\s+style=["']background(?:-color)?:\s*(C)["']>\s*(.*?)\s*<\/span>`
(color group 4, inner text group 5). -/
def spanTagRE : RE :=
  .seq (lit "<span") (.seq ws1 (.seq (lit "style=") (.seq (.cls quoteChar)
    (.seq (lit "background") (.seq (.optG (lit "-color")) (.seq (lit ":")
      (.seq ws0 (.seq (.group 4 colorRE) (.seq (.cls quoteChar)
        (.seq (lit ">") (.seq ws0 (.seq (.group 5 lazyDots)
          (.seq ws0 (lit "</span>"))))))))))))))

/-- `HighlightService.HIGHLIGHT_REGEX`: the ordered alternation of the three
patterns (double-equals, mark tag, span tag). -/
def highlightRE : RE := .alt doubleEqualsRE (.alt markTagRE spanTagRE)

/-- Fuel sufficient for any match attempt on suffix `l`: the call depth is
bounded by the pattern size plus the number of repetition iterations, each of
which consumes at least one character. -/
def matchFuel (l : Str) : Nat := l.length + 200

/-- Try a pattern at the start of the suffix `l`; on success return the
length of the match and the captures. -/
def tryMatch (r : RE) (l : Str) : Option (Nat × Caps) :=
  (runRE (matchFuel l) r l [] (fun s' c' => some (s', c'))).map
    (fun p => (l.length - p.1.length, p.2))

/-- Leftmost-match scan: `scanFrom i l` tries the combined pattern at the
start of `l` (which is the suffix of the content beginning at index `i`) and
at every later position, returning the first match as
(start index, length, captures) — the behaviour of `regex.exec`. -/
def scanFrom : Nat → Str → Option (Nat × Nat × Caps)
  | _, [] => none
  | i, l@(_ :: rest) =>
      match tryMatch highlightRE l with
      | some (len, caps) => some (i, len, caps)
      | none => scanFrom (i + 1) rest

/-- All matches of the global combined pattern, in scan order, resuming after
the end of each match as `while ((match = regex.exec(content)) !== null)`
does.  (`max len 1` is a termination guard only: the combined pattern cannot
match the empty string.) -/
def allMatchesAux : Nat → Nat → Str → List (Nat × Nat × Caps)
  | 0, _, _ => []
  | fuel + 1, i, l =>
      match scanFrom i l with
      | none => []
      | some (j, len, caps) =>
          (j, len, caps) ::
            allMatchesAux fuel (j + max len 1) (l.drop (j - i + max len 1))

def allMatches (content : Str) : List (Nat × Nat × Caps) :=
  allMatchesAux (content.length + 1) 0 content

/-- JavaScript `a || b` on strings where `a` may be undefined:
an undefined or empty `a` falls through to `b`. -/
def jsOr (a b : Option Str) : Option Str :=
  match a with
  | some s => if s = [] then b else some s
  | none => b

/-- `doubleEqual || markText || spanText || ''` on the captures of one match
of the combined pattern. -/
def resolvedText (caps : Caps) : Str :=
  (jsOr (capGet caps 1) (jsOr (capGet caps 3) (capGet caps 5))).getD []

/-- `markBg || spanBg || undefined`. -/
def resolvedColor (caps : Caps) : Option Str :=
  match jsOr (capGet caps 2) (capGet caps 4) with
  | some [] => none
  | x => x

/-- `HighlightService.hasHighlights`: run `exec` once on a fresh copy of the
combined pattern and test the truthiness of the trimmed resolved text of that
single first match. -/
def hasHighlights (content : Str) : Bool :=
  match scanFrom 0 content with
  | some (_, _, caps) => !(jsTrim (resolvedText caps)).isEmpty
  | none => false

/-- The inner text captured by the standalone double-equals pattern at
position `i` of the content, if it matches there. -/
def doubleEqualsCapAt (content : Str) (i : Nat) : Option Str :=
  (tryMatch doubleEqualsRE (content.drop i)).bind (fun p => capGet p.2 1)

/-- `CommentItem` of `types.ts`. -/
structure CommentItem where
  id : String
  content : String
  createdAt : Nat
  updatedAt : Nat
  deriving DecidableEq, Repr

/-- `HighlightInfo` as populated by `HighlightService.extractHighlights`
(text kept as a character list; fields the extractor never writes are
omitted). -/
structure HighlightInfo where
  text : Str
  position : Nat
  paragraphOffset : Nat
  backgroundColor : Option Str
  id : Str
  comments : List CommentItem
  createdAt : Nat
  updatedAt : Nat
  originalLength : Nat
  deriving DecidableEq, Repr

/-- JavaScript `String.prototype.lastIndexOf("\n")` on a character list. -/
def lastIndexOfNl : Str → Option Nat
  | [] => none
  | c :: rest =>
      match lastIndexOfNl rest with
      | some k => some (k + 1)
      | none => if c = '\n' then some 0 else none

/-- `HighlightService.getParagraphOffset`: last newline in the text before
`position`; `-1` (here `none`) gives `position`, index `k` gives
`position - k`. -/
def getParagraphOffset (content : Str) (position : Nat) : Nat :=
  match lastIndexOfNl (content.take position) with
  | none => position
  | some k => position - k

/-- Stable insertion of `x` into `l`: `x` is placed before the first element
not strictly below it.  Folding this over a list reproduces the result of
JavaScript's stable `Array.prototype.sort` for a consistent comparator
(`lt a b` standing for `comparator(a, b) < 0`). -/
def insertS (lt : α → α → Bool) (x : α) : List α → List α
  | [] => [x]
  | y :: ys => if lt y x then y :: insertS lt x ys else x :: y :: ys

/-- Stable sort (the model of `Array.prototype.sort`). -/
def insSort (lt : α → α → Bool) : List α → List α
  | [] => []
  | x :: xs => insertS lt x (insSort lt xs)

/-- The occurrence record pushed by `extractHighlights` for a match at index
`idx` of length `len` with captures `caps` (`now` models `Date.now()`). -/
def mkInfo (now : Nat) (content : Str) (idx len : Nat) (caps : Caps) :
    HighlightInfo :=
  { text := resolvedText caps
    position := idx
    paragraphOffset := getParagraphOffset content idx
    backgroundColor := resolvedColor caps
    id := ("highlight-" ++ toString now ++ "-" ++ toString idx).toList
    comments := []
    createdAt := now
    updatedAt := now
    originalLength := len }

/-- One iteration of the extraction loop: drop the candidate when a
previously accepted occurrence lies fewer than 10 characters away with
exactly equal text (`isDuplicate`), or when its resolved text is empty
(the falsy check on `text`). -/
def extractStep (now : Nat) (content : Str) (acc : List HighlightInfo)
    (m : Nat × Nat × Caps) : List HighlightInfo :=
  if !(acc.any (fun h =>
        decide (((h.position : Int) - (m.1 : Int)).natAbs < 10) &&
          h.text == resolvedText m.2.2)) &&
      !(resolvedText m.2.2).isEmpty then
    acc ++ [mkInfo now content m.1 m.2.1 m.2.2]
  else acc

/-- `HighlightService.extractHighlights`: scan, filter and deduplicate, then
stable-sort by ascending position. -/
def extractHighlights (now : Nat) (content : Str) : List HighlightInfo :=
  insSort (fun a b => decide (a.position < b.position))
    ((allMatches content).foldl (extractStep now content) [])

/-! ## The annotation store (`CommentStore` of `types.ts`)

JavaScript objects and `Map`s are modelled as insertion-ordered association
lists: setting an existing key updates it in place, setting a new key appends
it, and `Object.values` / iteration follow that order. -/

/-- `HighlightComment` of `types.ts` (an absent `isVirtual` behaves as
`false` everywhere it is read, so it is modelled as a `Bool`). -/
structure HighlightComment where
  id : String
  text : String
  position : Nat
  paragraphId : String
  comments : List CommentItem
  createdAt : Nat
  updatedAt : Nat
  isVirtual : Bool := false
  filePath : Option String := none
  fileType : Option String := none
  displayText : Option String := none
  paragraphOffset : Option Nat := none
  backgroundColor : Option String := none
  deriving DecidableEq, Repr

/-- `FileComment` of `types.ts`. -/
structure FileComment where
  id : String
  content : String
  createdAt : Nat
  updatedAt : Nat
  filePath : String
  deriving DecidableEq, Repr

/-- Insertion-ordered association list (JavaScript object / `Map`). -/
abbrev AList (α : Type) := List (String × α)

def aget (m : AList α) (k : String) : Option α :=
  (m.find? (fun p => p.1 = k)).map (·.2)

/-- Assignment `m[k] = v`: update in place if present, else append. -/
def aset (m : AList α) (k : String) (v : α) : AList α :=
  if (m.find? (fun p => p.1 = k)).isSome then
    m.map (fun p => if p.1 = k then (k, v) else p)
  else m ++ [(k, v)]

/-- `delete m[k]`. -/
def adel (m : AList α) (k : String) : AList α := m.filter (fun p => p.1 ≠ k)

def avalues (m : AList α) : List α := m.map (·.2)

/-- The in-memory state of a `CommentStore`.  `data` and `fileCommentsData`
are the plain objects loaded from storage; `fileComments` and `comments` are
the `Map`s built from them on load; `commentCache` is the bounded
paragraph cache. -/
structure CommentStore where
  data : AList (AList HighlightComment)
  fileCommentsData : AList (List FileComment)
  fileComments : AList (List FileComment)
  comments : AList (List HighlightComment)
  commentCache : AList (List HighlightComment)
  deriving DecidableEq, Repr

def maxCacheSize : Nat := 100

/-- What `saveComments` hands to the durable-storage collaborator:
`{ comments: this.data, fileComments: Object.fromEntries(this.fileComments) }`. -/
def savePayload (s : CommentStore) :
    AList (AList HighlightComment) × AList (List FileComment) :=
  (s.data, s.fileComments)

/-- The comparator of `CommentStore.getFileComments` as a strict order:
`lt a b` holds when the comparator returns a negative number. -/
def fileCommentsLt (a b : HighlightComment) : Bool :=
  (a.isVirtual && !b.isVirtual) ||
    ((a.isVirtual == b.isVirtual) && decide (a.position < b.position))

/-- `CommentStore.getFileComments`: the values stored for the path, sorted
with virtual highlights first and otherwise by `a.position - b.position`. -/
def getFileComments (s : CommentStore) (path : String) :
    List HighlightComment :=
  insSort fileCommentsLt (avalues ((aget s.data path).getD []))

/-- `CommentStore.getFileOnlyComments`: reads the `fileComments` map. -/
def getFileOnlyComments (s : CommentStore) (path : String) :
    List FileComment :=
  (aget s.fileComments path).getD []

/-- `CommentStore.addComment`.  `activeBlockId` models the block identifier
derived through the active editor when one is available (the
`currentFile.path + '#^' + this.getBlockId(...)` string); `now` models
`Date.now()` for the synthesized fallback identifier. -/
def addComment (s : CommentStore) (path : String) (highlight : HighlightComment)
    (activeBlockId : Option String) (now : Nat) : CommentStore :=
  let inner := (aget s.data path).getD []
  if highlight.isVirtual then
    { s with data := aset s.data path (aset inner highlight.id highlight) }
  else
    let h :=
      if highlight.paragraphId = "" then
        match activeBlockId with
        | some blockId => { highlight with paragraphId := blockId }
        | none =>
            { highlight with paragraphId := path ++ "#^" ++ toString now }
      else highlight
    { s with data := aset s.data path (aset inner highlight.id h) }

/-- `CommentStore.updateComment` (the spec's `addCommentToHighlight`):
append a fresh `CommentItem` to an existing highlight and bump its
`updatedAt`; silently do nothing when the highlight is absent. -/
def updateComment (s : CommentStore) (path highlightId : String)
    (commentContent : String) (now : Nat) : CommentStore :=
  match (aget s.data path).bind (fun m => aget m highlightId) with
  | none => s
  | some highlight =>
      let newComment : CommentItem :=
        { id := "comment-" ++ toString now
          content := commentContent
          createdAt := now
          updatedAt := now }
      let h := { highlight with
                  comments := highlight.comments ++ [newComment]
                  updatedAt := now }
      { s with
          data := aset s.data path
            (aset ((aget s.data path).getD []) highlightId h) }

/-- `CommentStore.removeComment`: delete the entry keyed by the highlight's
id; drop the document key when its object becomes empty. -/
def removeComment (s : CommentStore) (path : String)
    (highlight : HighlightComment) : CommentStore :=
  match aget s.data path with
  | none => s
  | some m =>
      if (aget m highlight.id).isSome then
        let m' := adel m highlight.id
        if m' = [] then { s with data := adel s.data path }
        else { s with data := aset s.data path m' }
      else s

/-- `CommentStore.cleanupComments`: drop every key of `data` and of
`fileCommentsData` that is not among the existing files; the returned flag
records whether `saveComments` was called. -/
def cleanupComments (s : CommentStore) (existingFiles : List String) :
    CommentStore × Bool :=
  let changed :=
    (s.data.any (fun p => !existingFiles.contains p.1)) ||
    (s.fileCommentsData.any (fun p => !existingFiles.contains p.1))
  ({ s with
      data := s.data.filter (fun p => existingFiles.contains p.1)
      fileCommentsData :=
        s.fileCommentsData.filter (fun p => existingFiles.contains p.1) },
    changed)

/-- `CommentStore.getCommentsByParagraphId`: the path's values filtered by
paragraph id, sorted by ascending position. -/
def getCommentsByParagraphId (s : CommentStore) (path paragraphId : String) :
    List HighlightComment :=
  insSort (fun a b => decide (a.position < b.position))
    ((avalues ((aget s.data path).getD [])).filter
      (fun h => h.paragraphId = paragraphId))

/-- `CommentStore.hasParagraphComments`. -/
def hasParagraphComments (s : CommentStore) (path paragraphId : String) :
    Bool :=
  (getCommentsByParagraphId s path paragraphId).length > 0

/-- `CommentStore.pruneCache`: when the cache exceeds the cap, delete the
oldest-inserted keys down to the cap. -/
def pruneCache (cache : AList (List HighlightComment)) :
    AList (List HighlightComment) :=
  if cache.length > maxCacheSize then cache.drop (cache.length - maxCacheSize)
  else cache

/-- `CommentStore.loadVisibleComments` (the spec's
`refreshVisibleParagraphCache`): a no-op without an active file; otherwise
recompute each given paragraph's comments into the cache and prune. -/
def loadVisibleComments (s : CommentStore) (currentFile : Option String)
    (visibleParagraphIds : List String) : CommentStore :=
  match currentFile with
  | none => s
  | some f =>
      { s with commentCache :=
          pruneCache (visibleParagraphIds.foldl
            (fun cache pid => aset cache pid (getCommentsByParagraphId s f pid))
            s.commentCache) }

/-- `CommentStore.batchUpdateComments`: group the updates by id into a fresh
map, then write each group into the derived `comments` index. -/
def batchUpdateComments (s : CommentStore)
    (updates : List (String × HighlightComment)) : CommentStore :=
  let batch := updates.foldl
    (fun b u => aset b u.1 ((aget b u.1).getD [] ++ [u.2]))
    ([] : AList (List HighlightComment))
  { s with comments :=
      batch.foldl (fun cm p => aset cm p.1 p.2) s.comments }

/-- `CommentStore.clearAllComments`. -/
def clearAllComments (s : CommentStore) : CommentStore :=
  { s with data := [], fileCommentsData := [] }

/-! ## Association-list lemmas -/

theorem aget_eq_some_mem {m : AList α} {k : String} {v : α}
    (h : aget m k = some v) : (k, v) ∈ m := by
  unfold aget at h
  cases hf : m.find? (fun p => p.1 = k) with
  | none => simp [hf] at h
  | some p =>
      simp [hf] at h
      have hp := List.find?_some hf
      have hmem := List.mem_of_find?_eq_some hf
      have hk : p.1 = k := by simpa using hp
      have : p = (k, v) := by
        cases p with
        | mk a b => simp_all
      rwa [this] at hmem

theorem aset_get_self (m : AList α) (k : String) (v : α) :
    aget (aset m k v) k = some v := by
  unfold aset
  split
  · next hfind =>
      unfold aget
      cases hf : m.find? (fun p => p.1 = k) with
      | none => simp [hf] at hfind
      | some p =>
          have hk : p.1 = k := by simpa using List.find?_some hf
          rw [List.find?_map]
          have heq : ((fun q : String × α => decide (q.1 = k)) ∘
              fun q : String × α => if q.1 = k then (k, v) else q) =
              fun q : String × α => decide (q.1 = k) := by
            funext q
            by_cases hq : q.1 = k <;> simp [hq]
          rw [heq, hf]
          simp [hk]
  · unfold aget
    rw [List.find?_append]
    cases hf : m.find? (fun p => p.1 = k) with
    | none => simp
    | some p => next hfind => simp [hf] at hfind

theorem mem_aset {m : AList α} {k : String} {v : α} {p : String × α}
    (h : p ∈ aset m k v) : p ∈ m ∨ p = (k, v) := by
  unfold aset at h
  split at h
  · rcases List.mem_map.mp h with ⟨q, hq, hpq⟩
    by_cases hk : q.1 = k
    · right
      simp only [hk, if_pos] at hpq
      exact hpq.symm
    · left
      simp only [hk, if_neg, not_false_iff] at hpq
      exact hpq ▸ hq
  · rcases List.mem_append.mp h with h1 | h1
    · exact Or.inl h1
    · simp at h1
      exact Or.inr h1

theorem mem_adel {m : AList α} {k : String} {p : String × α}
    (h : p ∈ adel m k) : p ∈ m ∧ p.1 ≠ k := by
  unfold adel at h
  have := List.of_mem_filter h
  exact ⟨List.mem_of_mem_filter h, by simpa using this⟩

theorem mem_avalues {m : AList α} {v : α} :
    v ∈ avalues m ↔ ∃ p ∈ m, p.2 = v := by
  unfold avalues
  simp [List.mem_map]

/-! ## Stable-sort lemmas -/

theorem insertS_perm (lt : α → α → Bool) (x : α) :
    ∀ l : List α, (insertS lt x l).Perm (x :: l)
  | [] => List.Perm.refl _
  | y :: ys => by
      unfold insertS
      split
      · exact ((insertS_perm lt x ys).cons y).trans (List.Perm.swap x y ys)
      · exact List.Perm.refl _

theorem insSort_perm (lt : α → α → Bool) :
    ∀ l : List α, (insSort lt l).Perm l
  | [] => List.Perm.refl _
  | x :: xs =>
      (insertS_perm lt x (insSort lt xs)).trans ((insSort_perm lt xs).cons x)

theorem mem_insSort (lt : α → α → Bool) (l : List α) (a : α) :
    a ∈ insSort lt l ↔ a ∈ l :=
  (insSort_perm lt l).mem_iff

theorem pairwise_insertS (lt : α → α → Bool)
    (hasymm : ∀ a b, lt a b = true → lt b a = false)
    (htrans : ∀ a b c, lt b a = false → lt c b = false → lt c a = false)
    (x : α) :
    ∀ l : List α, l.Pairwise (fun a b => lt b a = false) →
      (insertS lt x l).Pairwise (fun a b => lt b a = false)
  | [], _ => by simp [insertS]
  | y :: ys, hp => by
      unfold insertS
      split
      · next hlt =>
          refine List.Pairwise.cons ?_ (pairwise_insertS lt hasymm htrans x ys hp.tail)
          intro z hz
          rcases List.mem_cons.mp ((insertS_perm lt x ys).mem_iff.mp hz) with
            rfl | hz'
          · exact hasymm y z hlt
          · exact List.rel_of_pairwise_cons hp hz'
      · next hlt =>
          refine List.Pairwise.cons ?_ hp
          intro z hz
          have hyx : lt y x = false := by
            cases h : lt y x
            · rfl
            · exact absurd h (by simp [hlt])
          rcases List.mem_cons.mp hz with rfl | hz
          · exact hyx
          · exact htrans x y z hyx (List.rel_of_pairwise_cons hp hz)

theorem pairwise_insSort (lt : α → α → Bool)
    (hasymm : ∀ a b, lt a b = true → lt b a = false)
    (htrans : ∀ a b c, lt b a = false → lt c b = false → lt c a = false) :
    ∀ l : List α, (insSort lt l).Pairwise (fun a b => lt b a = false)
  | [] => by simp [insSort]
  | x :: xs =>
      pairwise_insertS lt hasymm htrans x (insSort lt xs)
        (pairwise_insSort lt hasymm htrans xs)

theorem filter_insertS (lt : α → α → Bool) (P : α → Bool)
    (hP : ∀ a b, P a = true → P b = true → lt a b = false) (x : α) :
    ∀ l : List α, (insertS lt x l).filter P =
      if P x then x :: l.filter P else l.filter P
  | [] => by
      by_cases h : P x = true
      · simp [insertS, List.filter, h]
      · have h' : P x = false := by simpa using h
        simp [insertS, List.filter, h']
  | y :: ys => by
      unfold insertS
      split
      · next hlt =>
          have hrec := filter_insertS lt P hP x ys
          by_cases hx : P x = true
          · have hy : P y = false := by
              cases hy : P y
              · rfl
              · exact absurd (hP y x hy hx) (by simp [hlt])
            simp [List.filter, hy, hrec, hx]
          · have hx' : P x = false := by simpa using hx
            simp [List.filter, hrec, hx']
      · by_cases hx : P x = true
        · simp [List.filter, hx]
        · have hx' : P x = false := by simpa using hx
          simp [List.filter, hx']

theorem filter_insSort (lt : α → α → Bool) (P : α → Bool)
    (hP : ∀ a b, P a = true → P b = true → lt a b = false) :
    ∀ l : List α, (insSort lt l).filter P = l.filter P
  | [] => rfl
  | x :: xs => by
      unfold insSort
      rw [filter_insertS lt P hP x (insSort lt xs)]
      by_cases hx : P x = true
      · simp [List.filter, hx, filter_insSort lt P hP xs]
      · have hx' : P x = false := by simpa using hx
        simp [List.filter, hx', filter_insSort lt P hP xs]

/-! ## Scan-loop lemmas -/

theorem scanFrom_ge :
    ∀ (l : Str) (i j len : Nat) (caps : Caps),
      scanFrom i l = some (j, len, caps) → i ≤ j
  | [], i, j, len, caps, h => by simp [scanFrom] at h
  | c :: rest, i, j, len, caps, h => by
      unfold scanFrom at h
      cases htm : tryMatch highlightRE (c :: rest) with
      | some p =>
          rw [htm] at h
          simp at h
          omega
      | none =>
          rw [htm] at h
          have := scanFrom_ge rest (i + 1) j len caps h
          omega

theorem scanFrom_eq_some :
    ∀ (l : Str) (i j len : Nat) (caps : Caps),
      scanFrom i l = some (j, len, caps) →
        i ≤ j ∧ tryMatch highlightRE (l.drop (j - i)) = some (len, caps) ∧
          ∀ d, d < j - i → tryMatch highlightRE (l.drop d) = none
  | [], i, j, len, caps, h => by simp [scanFrom] at h
  | c :: rest, i, j, len, caps, h => by
      unfold scanFrom at h
      cases htm : tryMatch highlightRE (c :: rest) with
      | some p =>
          rw [htm] at h
          simp at h
          obtain ⟨rfl, rfl, rfl⟩ := h
          refine ⟨Nat.le_refl _, ?_, ?_⟩
          · simpa using htm
          · intro d hd
            omega
      | none =>
          rw [htm] at h
          obtain ⟨hij, hm, hnone⟩ :=
            scanFrom_eq_some rest (i + 1) j len caps h
          have hji : 1 ≤ j - i := by omega
          refine ⟨by omega, ?_, ?_⟩
          · have : (c :: rest).drop (j - i) = rest.drop (j - i - 1) := by
              have : j - i = (j - i - 1) + 1 := by omega
              rw [this]
              rfl
            rw [this]
            have : j - i - 1 = j - (i + 1) := by omega
            rw [this]
            exact hm
          · intro d hd
            cases d with
            | zero => simpa using htm
            | succ d' =>
                have : (c :: rest).drop (d' + 1) = rest.drop d' := rfl
                rw [this]
                exact hnone d' (by omega)

theorem tryMatch_nil : tryMatch highlightRE [] = none := by decide

theorem scanFrom_none :
    ∀ (l : Str) (i : Nat), scanFrom i l = none →
      ∀ d, tryMatch highlightRE (l.drop d) = none
  | [], _, _, d => by
      simp only [List.drop_nil]
      exact tryMatch_nil
  | c :: rest, i, h, d => by
      unfold scanFrom at h
      cases htm : tryMatch highlightRE (c :: rest) with
      | some p => rw [htm] at h; simp at h
      | none =>
          rw [htm] at h
          cases d with
          | zero => simpa using htm
          | succ d' => exact scanFrom_none rest (i + 1) h d'

theorem allMatchesAux_ge :
    ∀ (fuel i : Nat) (l : Str) (m : Nat × Nat × Caps),
      m ∈ allMatchesAux fuel i l → i ≤ m.1
  | 0, _, _, _, h => by simp [allMatchesAux] at h
  | fuel + 1, i, l, m, h => by
      unfold allMatchesAux at h
      cases hs : scanFrom i l with
      | none => rw [hs] at h; simp at h
      | some r =>
          obtain ⟨j, len, caps⟩ := r
          rw [hs] at h
          rcases List.mem_cons.mp h with rfl | h'
          · exact scanFrom_ge l i j len caps hs
          · have hij := scanFrom_ge l i j len caps hs
            have := allMatchesAux_ge fuel (j + max len 1) (l.drop (j - i + max len 1)) m h'
            omega

theorem allMatchesAux_pairwise :
    ∀ (fuel i : Nat) (l : Str),
      (allMatchesAux fuel i l).Pairwise (fun m m' => m.1 < m'.1)
  | 0, _, _ => by simp [allMatchesAux]
  | fuel + 1, i, l => by
      unfold allMatchesAux
      cases hs : scanFrom i l with
      | none => simp
      | some r =>
          obtain ⟨j, len, caps⟩ := r
          refine List.Pairwise.cons ?_ (allMatchesAux_pairwise fuel _ _)
          intro m hm
          have := allMatchesAux_ge fuel (j + max len 1) (l.drop (j - i + max len 1)) m hm
          have hmax : 1 ≤ max len 1 := Nat.le_max_right len 1
          omega

/-- Two matches of one scan cannot start at the same index. -/
theorem allMatches_pos_inj {content : Str} {m m' : Nat × Nat × Caps}
    (hm : m ∈ allMatches content) (hm' : m' ∈ allMatches content)
    (hpos : m.1 = m'.1) : m = m' := by
  by_cases heq : m = m'
  · exact heq
  · have hp : (allMatches content).Pairwise
        (fun x y : Nat × Nat × Caps => x.1 ≠ y.1) :=
      (allMatchesAux_pairwise (content.length + 1) 0 content).imp
        (fun h => Nat.ne_of_lt h)
    have hsym : Symmetric (fun x y : Nat × Nat × Caps => x.1 ≠ y.1) :=
      fun _ _ h => Ne.symm h
    exact absurd hpos (hp.forall hsym hm hm' heq)

/-- Every occurrence in the extraction accumulator after folding came either
from the initial accumulator or from one of the folded matches, with
non-empty resolved text. -/
theorem foldl_extractStep_mem (now : Nat) (content : Str) :
    ∀ (ms : List (Nat × Nat × Caps)) (acc : List HighlightInfo)
      (occ : HighlightInfo),
      occ ∈ ms.foldl (extractStep now content) acc →
      occ ∈ acc ∨ ∃ m ∈ ms, occ = mkInfo now content m.1 m.2.1 m.2.2 ∧
        resolvedText m.2.2 ≠ []
  | [], acc, occ, h => Or.inl h
  | m :: ms, acc, occ, h => by
      rcases foldl_extractStep_mem now content ms (extractStep now content acc m)
        occ h with h1 | h1
      · unfold extractStep at h1
        split at h1
        · next hcond =>
            rcases List.mem_append.mp h1 with h2 | h2
            · exact Or.inl h2
            · refine Or.inr ⟨m, List.mem_cons_self m ms, by simpa using h2, ?_⟩
              have hc2 := ((Bool.and_eq_true _ _).mp hcond).2
              intro he
              rw [he] at hc2
              simp at hc2
        · exact Or.inl h1
      · rcases h1 with ⟨m', hm', hocc, hne⟩
        exact Or.inr ⟨m', List.mem_cons_of_mem m hm', hocc, hne⟩

/-- Every occurrence produced by `extractHighlights` is the record built for
one of the scan's matches, and its resolved text is non-empty. -/
theorem extract_occ_spec {now : Nat} {content : Str} {occ : HighlightInfo}
    (h : occ ∈ extractHighlights now content) :
    ∃ m ∈ allMatches content, occ = mkInfo now content m.1 m.2.1 m.2.2 ∧
      resolvedText m.2.2 ≠ [] := by
  unfold extractHighlights at h
  rw [mem_insSort] at h
  rcases foldl_extractStep_mem now content (allMatches content) [] occ h with
    h1 | h1
  · simp at h1
  · exact h1

/-! ## Last-newline lemmas -/

theorem lastIndexOfNl_none_spec :
    ∀ l : Str, lastIndexOfNl l = none → ∀ j, l.get? j ≠ some '\n'
  | [], _, j => by simp
  | c :: rest, h, j => by
      unfold lastIndexOfNl at h
      cases hr : lastIndexOfNl rest with
      | some k => rw [hr] at h; simp at h
      | none =>
          rw [hr] at h
          have hc : ¬ c = '\n' := by
            intro hcn
            rw [if_pos hcn] at h
            simp at h
          cases j with
          | zero => simpa using hc
          | succ j' => exact lastIndexOfNl_none_spec rest hr j'

theorem lastIndexOfNl_some_spec :
    ∀ (l : Str) (k : Nat), lastIndexOfNl l = some k →
      l.get? k = some '\n' ∧ ∀ j, k < j → l.get? j ≠ some '\n'
  | [], k, h => by simp [lastIndexOfNl] at h
  | c :: rest, k, h => by
      unfold lastIndexOfNl at h
      cases hr : lastIndexOfNl rest with
      | some k' =>
          rw [hr] at h
          simp at h
          obtain ⟨hk', hnewl⟩ := lastIndexOfNl_some_spec rest k' hr
          subst h
          refine ⟨by simpa using hk', ?_⟩
          intro j hj
          cases j with
          | zero => omega
          | succ j' => exact hnewl j' (by omega)
      | none =>
          rw [hr] at h
          by_cases hc : c = '\n'
          · rw [if_pos hc] at h
            simp at h
            subst h
            refine ⟨by simpa using hc, ?_⟩
            intro j hj
            cases j with
            | zero => omega
            | succ j' => exact lastIndexOfNl_none_spec rest hr j'
          · rw [if_neg hc] at h
            simp at h

theorem lastIndexOfNl_eq_some (l : Str) (k : Nat)
    (hk : l.get? k = some '\n')
    (hafter : ∀ j, k < j → l.get? j ≠ some '\n') :
    lastIndexOfNl l = some k := by
  cases h : lastIndexOfNl l with
  | none => exact absurd hk (lastIndexOfNl_none_spec l h k)
  | some k' =>
      obtain ⟨hk', hnewl⟩ := lastIndexOfNl_some_spec l k' h
      rcases Nat.lt_trichotomy k k' with hlt | heq | hgt
      · exact absurd hk' (hafter k' hlt)
      · rw [heq]
      · exact absurd hk (hnewl k hgt)

theorem get?_take_of_lt {l : Str} {n j : Nat} (h : j < n) :
    (l.take n).get? j = l.get? j := by
  induction l generalizing n j with
  | nil => simp
  | cons c rest ih =>
      cases n with
      | zero => omega
      | succ n' =>
          cases j with
          | zero => simp [List.take]
          | succ j' => simpa [List.take] using ih (by omega)

theorem get?_take_of_ge {l : Str} {n j : Nat} (h : n ≤ j) :
    (l.take n).get? j = none := by
  apply List.get?_eq_none.mpr
  calc (l.take n).length ≤ n := by
        simp
    _ ≤ j := h

/-! ## Claim C1 -/

/-- C1 counterexample: on `"====x=="` the double-equals pattern matches at
index 2 with captured inner text `"x"`, non-empty after trimming, yet
`hasHighlights` returns `false` — it inspects only the first match of the
combined pattern (the empty-texted `"===="` at index 0), so the claimed
equivalence with "some match has non-empty trimmed text" fails. -/
theorem hasHighlights_first_match_only_cex :
    hasHighlights "====x==".toList = false ∧
    doubleEqualsCapAt "====x==".toList 2 = some "x".toList ∧
    jsTrim "x".toList ≠ [] := by
  refine ⟨by decide, by decide, by decide⟩

/-- C1 (amended): `hasHighlights` returns true iff the combined pattern has a
match in the string and the first such match — the one starting at the least
index — has a resolved captured text that is non-empty after trimming.
Matches after the first one are never inspected. -/
theorem hasHighlights_first_match_iff (content : Str) :
    hasHighlights content = true ↔
      ∃ i len caps,
        tryMatch highlightRE (content.drop i) = some (len, caps) ∧
        (∀ j, j < i → tryMatch highlightRE (content.drop j) = none) ∧
        jsTrim (resolvedText caps) ≠ [] := by
  constructor
  · intro h
    unfold hasHighlights at h
    cases hs : scanFrom 0 content with
    | none => rw [hs] at h; simp at h
    | some r =>
        obtain ⟨i, len, caps⟩ := r
        rw [hs] at h
        obtain ⟨-, hm, hnone⟩ := scanFrom_eq_some content 0 i len caps hs
        refine ⟨i, len, caps, by simpa using hm, ?_, ?_⟩
        · intro j hj
          have := hnone j (by omega)
          simpa using this
        · intro he
          simp only at h
          rw [he] at h
          simp at h
  · rintro ⟨i, len, caps, hm, hmin, hne⟩
    unfold hasHighlights
    cases hs : scanFrom 0 content with
    | none =>
        have := scanFrom_none content 0 hs i
        rw [this] at hm
        cases hm
    | some r =>
        obtain ⟨i', len', caps'⟩ := r
        obtain ⟨-, hm', hnone'⟩ := scanFrom_eq_some content 0 i' len' caps' hs
        rw [Nat.sub_zero] at hm'
        have hii : i' = i := by
          rcases Nat.lt_trichotomy i i' with h1 | h1 | h1
          · have := hnone' i (by omega)
            rw [this] at hm
            cases hm
          · omega
          · have := hmin i' h1
            rw [this] at hm'
            cases hm'
        subst hii
        rw [hm] at hm'
        obtain ⟨rfl, rfl⟩ : len = len' ∧ caps = caps' := by
          constructor <;> injection hm' with h1 <;> simp_all
        simp only
        cases hcap : (jsTrim (resolvedText caps)).isEmpty with
        | false => simp
        | true =>
            exact absurd (List.isEmpty_iff.mp hcap) hne

/-- C1 witness: the amended characterization applied at a concrete input. -/
theorem hasHighlights_first_match_iff_witness :
    hasHighlights "==a==".toList = true :=
  (hasHighlights_first_match_iff "==a==".toList).mpr
    ⟨0, 5, [(1, ['a'])], by decide, fun j hj => absurd hj (by omega), by decide⟩

/-! ## Claim C2 -/

/-- C2 counterexample: the mark-tag pattern does not strip whitespace around
its inner-text capture, and the extraction loop tests the raw text for
truthiness without trimming: `"<mark> </mark>"` produces one occurrence whose
`text` is the single space — not the trimmed inner content, and not discarded
although the trimmed content is empty. -/
theorem extract_mark_untrimmed_cex :
    extractHighlights 0 "<mark> </mark>".toList =
      [{ text := [' '], position := 0, paragraphOffset := 0,
         backgroundColor := none, id := "highlight-0-0".toList,
         comments := [], createdAt := 0, updatedAt := 0,
         originalLength := 14 }] ∧
    jsTrim [' '] = [] := by
  refine ⟨by decide, by decide⟩

/-- C2 (amended): every occurrence returned by `extractHighlights` carries as
`text` the resolved captured inner content of the match at its position — the
double-equals and span patterns trim surrounding whitespace inside the
pattern itself, the mark pattern keeps the inner content verbatim — and that
text is a non-empty string; a match is discarded exactly when its resolved
text is the empty string, so a whitespace-only mark inner text is kept. -/
theorem extractHighlights_text_spec (now : Nat) (content : Str) :
    (∀ occ ∈ extractHighlights now content,
        occ.text ≠ [] ∧
        ∃ len caps, (occ.position, len, caps) ∈ allMatches content ∧
          occ.text = resolvedText caps) ∧
    (∀ m ∈ allMatches content, resolvedText m.2.2 = [] →
        ∀ occ ∈ extractHighlights now content, occ.position ≠ m.1) := by
  constructor
  · intro occ hmem
    obtain ⟨m, hm, rfl, hne⟩ := extract_occ_spec hmem
    exact ⟨hne, m.2.1, m.2.2, hm, rfl⟩
  · intro m hm hempty occ hmem hpos
    obtain ⟨m', hm', rfl, hne⟩ := extract_occ_spec hmem
    have hmm : m' = m := allMatches_pos_inj hm' hm hpos
    rw [hmm] at hne
    exact hne hempty

/-- The single occurrence extracted from `"==a=="`. -/
def occLetterA : HighlightInfo :=
  { text := ['a'], position := 0, paragraphOffset := 0,
    backgroundColor := none, id := "highlight-0-0".toList,
    comments := [], createdAt := 0, updatedAt := 0, originalLength := 5 }

/-- C2 witness: the amended statement applied to the single occurrence of a
concrete scan. -/
theorem extractHighlights_text_spec_witness :
    occLetterA ∈ extractHighlights 0 "==a==".toList ∧
    occLetterA.text ≠ [] := by
  have hmem : occLetterA ∈ extractHighlights 0 "==a==".toList := by decide
  exact ⟨hmem, ((extractHighlights_text_spec 0 "==a==".toList).1 _ hmem).1⟩

/-! ## Claim C5 -/

/-- C5: inside one extraction pass a candidate whose resolved text is
non-empty is dropped — the accumulator is returned unchanged, nothing is
merged — exactly when some already-accepted occurrence starts fewer than 10
characters away (in absolute distance) and has exactly equal text; otherwise
the candidate's record is appended. -/
theorem extractStep_dedup_spec (now : Nat) (content : Str)
    (acc : List HighlightInfo) (idx len : Nat) (caps : Caps)
    (htext : resolvedText caps ≠ []) :
    (extractStep now content acc (idx, len, caps) = acc ↔
      ∃ h ∈ acc, ((h.position : Int) - (idx : Int)).natAbs < 10 ∧
        h.text = resolvedText caps) ∧
    ((¬ ∃ h ∈ acc, ((h.position : Int) - (idx : Int)).natAbs < 10 ∧
        h.text = resolvedText caps) →
      extractStep now content acc (idx, len, caps) =
        acc ++ [mkInfo now content idx len caps]) := by
  have hany : (acc.any (fun h =>
      decide (((h.position : Int) - ((idx, len, caps).1 : Int)).natAbs < 10) &&
        h.text == resolvedText (idx, len, caps).2.2)) = true ↔
      ∃ h ∈ acc, ((h.position : Int) - (idx : Int)).natAbs < 10 ∧
        h.text = resolvedText caps := by
    rw [List.any_eq_true]
    constructor
    · rintro ⟨h, hh, hcond⟩
      rw [Bool.and_eq_true] at hcond
      exact ⟨h, hh, of_decide_eq_true hcond.1, by simpa using hcond.2⟩
    · rintro ⟨h, hh, h1, h2⟩
      exact ⟨h, hh, by simp [h1, h2]⟩
  have hnotempty : (resolvedText (idx, len, caps).2.2).isEmpty = false := by
    cases he : resolvedText caps with
    | nil => exact absurd he htext
    | cons c cs => simp [he]
  constructor
  · constructor
    · intro heq
      by_cases hdup : (acc.any (fun h =>
          decide (((h.position : Int) - ((idx, len, caps).1 : Int)).natAbs < 10) &&
            h.text == resolvedText (idx, len, caps).2.2)) = true
      · exact hany.mp hdup
      · exfalso
        have hfalse : (acc.any (fun h =>
            decide (((h.position : Int) - ((idx, len, caps).1 : Int)).natAbs < 10) &&
              h.text == resolvedText (idx, len, caps).2.2)) = false := by
          simpa using hdup
        unfold extractStep at heq
        rw [hfalse, hnotempty] at heq
        simp at heq
    · intro hex
      unfold extractStep
      rw [hany.mpr hex]
      simp
  · intro hnot
    have hfalse : (acc.any (fun h =>
        decide (((h.position : Int) - ((idx, len, caps).1 : Int)).natAbs < 10) &&
          h.text == resolvedText (idx, len, caps).2.2)) = false := by
      cases hd : (acc.any (fun h =>
          decide (((h.position : Int) - ((idx, len, caps).1 : Int)).natAbs < 10) &&
            h.text == resolvedText (idx, len, caps).2.2)) with
      | false => rfl
      | true => exact absurd (hany.mp hd) hnot
    unfold extractStep
    rw [hfalse, hnotempty]
    simp

/-- C5 witness: the characterization applied with an empty accumulator, and
the collapse of two nearby identical matches demonstrated concretely:
`"==x== ==x=="` has matches at indices 0 and 6 with equal text, 6 < 10 apart,
and yields a single occurrence. -/
theorem extractStep_dedup_spec_witness :
    extractStep 0 [] [] (0, 5, [(1, ['x'])]) =
      [] ++ [mkInfo 0 [] 0 5 [(1, ['x'])]] ∧
    (extractHighlights 0 "==x== ==x==".toList).length = 1 := by
  refine ⟨(extractStep_dedup_spec 0 [] [] 0 5 [(1, ['x'])] (by decide)).2
    (by simp), by decide⟩

/-! ## Claim C9 -/

/-- C9: every occurrence's `paragraphOffset` is its position when no newline
precedes it in the buffer, and `position - k` when the last newline before
`position` sits at index `k` — exactly the contract of
`getParagraphOffset`. -/
theorem extract_paragraphOffset_spec (now : Nat) (content : Str)
    (occ : HighlightInfo) (hmem : occ ∈ extractHighlights now content) :
    ((∀ j, j < occ.position → content.get? j ≠ some '\n') →
        occ.paragraphOffset = occ.position) ∧
    (∀ k, k < occ.position → content.get? k = some '\n' →
        (∀ j, k < j → j < occ.position → content.get? j ≠ some '\n') →
        occ.paragraphOffset = occ.position - k) := by
  obtain ⟨m, hm, rfl, -⟩ := extract_occ_spec hmem
  constructor
  · intro hno
    show getParagraphOffset content m.1 = m.1
    unfold getParagraphOffset
    cases hlast : lastIndexOfNl (content.take m.1) with
    | none => rfl
    | some k =>
        exfalso
        obtain ⟨hk, -⟩ := lastIndexOfNl_some_spec _ k hlast
        have hklen : k < (content.take m.1).length := by
          obtain ⟨hlt, -⟩ := List.get?_eq_some.mp hk
          exact hlt
        have hklt : k < m.1 := by
          have := List.length_take_le m.1 content
          omega
        have hcontent : content.get? k = some '\n' := by
          rw [← get?_take_of_lt hklt]
          exact hk
        exact hno k hklt hcontent
  · intro k hk hknl hbetween
    show getParagraphOffset content m.1 = m.1 - k
    unfold getParagraphOffset
    have hk' : k < m.1 := hk
    have hlast : lastIndexOfNl (content.take m.1) = some k := by
      apply lastIndexOfNl_eq_some
      · rw [get?_take_of_lt hk']
        exact hknl
      · intro j hj
        by_cases hjlt : j < m.1
        · rw [get?_take_of_lt hjlt]
          exact hbetween j hj hjlt
        · rw [get?_take_of_ge (by omega)]
          simp
    rw [hlast]

/-- The single occurrence extracted from `"a\n==x=="`. -/
def occAfterNewline : HighlightInfo :=
  { text := ['x'], position := 2, paragraphOffset := 1,
    backgroundColor := none, id := "highlight-0-2".toList,
    comments := [], createdAt := 0, updatedAt := 0, originalLength := 5 }

/-- C9 witness: in `"a\n==x=="` the single occurrence starts at index 2, the
last newline before it is at index 1, and its paragraph offset is
`2 - 1 = 1`. -/
theorem extract_paragraphOffset_spec_witness :
    occAfterNewline ∈ extractHighlights 0 "a\n==x==".toList ∧
    occAfterNewline.paragraphOffset = occAfterNewline.position - 1 := by
  have hmem : occAfterNewline ∈ extractHighlights 0 "a\n==x==".toList := by
    decide
  have h := (extract_paragraphOffset_spec 0 "a\n==x==".toList _ hmem).2 1
    (by decide) (by decide)
    (fun j h1 h2 => absurd h1 (by have h2' : j < 2 := h2; omega))
  exact ⟨hmem, h⟩

/-! ## Claim C3 -/

/-- A file comment stored for `"a.md"`. -/
def staleFileComment : FileComment :=
  { id := "file-comment-1", content := "note", createdAt := 0, updatedAt := 0,
    filePath := "a.md" }

/-- A freshly loaded store holding only that file comment (the plain-object
snapshot and the map agree, as they do right after `loadComments`). -/
def staleStore : CommentStore :=
  { data := []
    fileCommentsData := [("a.md", [staleFileComment])]
    fileComments := [("a.md", [staleFileComment])]
    comments := []
    commentCache := [] }

/-- C3: `cleanupComments` with an empty live set deletes `"a.md"` from the
`fileCommentsData` snapshot and reports a change, but the `fileComments` map
— the one `getFileOnlyComments` queries and `saveComments` persists — still
returns the supposedly removed path's comments, contradicting the claim that
a removed path's subsequent queries return nothing. -/
theorem cleanupComments_stale_snapshot_bug :
    (cleanupComments staleStore []).2 = true ∧
    (cleanupComments staleStore []).1.fileCommentsData = [] ∧
    getFileOnlyComments (cleanupComments staleStore []).1 "a.md" =
      [staleFileComment] ∧
    savePayload (cleanupComments staleStore []).1 =
      ([], [("a.md", [staleFileComment])]) := by
  refine ⟨by decide, by decide, by decide, by decide⟩

/-! ## Claim C4 -/

/-- Store well-formedness: in every document object, each entry's key is the
stored highlight's id — the invariant `addComment` itself maintains, since it
always writes `this.data[file.path][highlight.id] = highlight`. -/
def StoreWF (s : CommentStore) : Prop :=
  ∀ path m, aget s.data path = some m → ∀ p ∈ m, p.2.id = p.1

/-- `addComment` stores, under the highlight's id, a record that differs from
the argument at most in `paragraphId`. -/
theorem addComment_data (s : CommentStore) (path : String)
    (h : HighlightComment) (activeBlockId : Option String) (now : Nat) :
    ∃ h', (addComment s path h activeBlockId now).data =
        aset s.data path (aset ((aget s.data path).getD []) h.id h') ∧
      h'.id = h.id ∧ h'.text = h.text ∧ h'.position = h.position := by
  unfold addComment
  by_cases hv : h.isVirtual = true
  · exact ⟨h, by simp [hv], rfl, rfl, rfl⟩
  · have hv' : h.isVirtual = false := by simpa using hv
    by_cases hp : h.paragraphId = ""
    · cases activeBlockId with
      | some blockId =>
          exact ⟨{ h with paragraphId := blockId }, by simp [hv', hp],
            rfl, rfl, rfl⟩
      | none =>
          exact ⟨{ h with paragraphId := path ++ "#^" ++ toString now },
            by simp [hv', hp], rfl, rfl, rfl⟩
    · exact ⟨h, by simp [hv', hp], rfl, rfl, rfl⟩

theorem aget_adel_self (m : AList α) (k : String) :
    aget (adel m k) k = none := by
  unfold aget adel
  rw [List.find?_eq_none.mpr]
  · rfl
  · intro p hp
    have := List.of_mem_filter hp
    simpa using this

/-- C4: after `addComment`, listing the document returns a record with the
added highlight's id, text and position; after `removeComment` of that
highlight, no listed record carries its id.  The well-formedness hypothesis
(keys are ids) is the invariant the store's own writes maintain. -/
theorem addComment_roundtrip (s : CommentStore) (path : String)
    (h : HighlightComment) (activeBlockId : Option String) (now : Nat)
    (hwf : StoreWF s) :
    (∃ r ∈ getFileComments (addComment s path h activeBlockId now) path,
        r.id = h.id ∧ r.text = h.text ∧ r.position = h.position) ∧
    (∀ r ∈ getFileComments
        (removeComment (addComment s path h activeBlockId now) path h) path,
      r.id ≠ h.id) := by
  obtain ⟨h', hdata, hid, htext, hpos⟩ :=
    addComment_data s path h activeBlockId now
  have hget1 : aget (addComment s path h activeBlockId now).data path =
      some (aset ((aget s.data path).getD []) h.id h') := by
    rw [hdata]
    exact aset_get_self _ _ _
  have hget2 : aget (aset ((aget s.data path).getD []) h.id h') h.id =
      some h' := aset_get_self _ _ _
  constructor
  · refine ⟨h', ?_, hid, htext, hpos⟩
    unfold getFileComments
    rw [mem_insSort, hget1]
    exact mem_avalues.mpr ⟨(h.id, h'), aget_eq_some_mem hget2, rfl⟩
  · intro r hr hrid
    unfold removeComment at hr
    rw [hget1] at hr
    simp only [hget2, Option.isSome_some, if_true] at hr
    set m1 := aset ((aget s.data path).getD []) h.id h' with hm1
    by_cases hdel : adel m1 h.id = []
    · rw [if_pos hdel] at hr
      unfold getFileComments at hr
      rw [mem_insSort] at hr
      simp only at hr
      rw [show aget (adel (addComment s path h activeBlockId now).data path)
          path = none from aget_adel_self _ _] at hr
      simp [avalues] at hr
    · rw [if_neg hdel] at hr
      unfold getFileComments at hr
      rw [mem_insSort] at hr
      simp only at hr
      rw [show aget (aset (addComment s path h activeBlockId now).data path
          (adel m1 h.id)) path = some (adel m1 h.id) from
        aset_get_self _ _ _] at hr
      rcases mem_avalues.mp hr with ⟨p, hpmem, hpr⟩
      obtain ⟨hpm1, hpk⟩ := mem_adel hpmem
      rcases mem_aset hpm1 with hpinner | hpeq
      · have hpid : p.2.id = p.1 := by
          cases hg : aget s.data path with
          | none => rw [hg] at hpinner; simp at hpinner
          | some m0 =>
              rw [hg] at hpinner
              exact hwf path m0 hg p (by simpa using hpinner)
        rw [← hpr] at hrid
        rw [hpid] at hrid
        exact hpk hrid
      · exact hpk (by rw [hpeq])
  -- end of C4 theorem

/-- A concrete well-formed store and highlight for the C4 witness. -/
def roundtripHighlight : HighlightComment :=
  { id := "h1", text := "hello", position := 3, paragraphId := "a.md#^b1",
    comments := [], createdAt := 0, updatedAt := 0 }

/-- C4 witness: the round trip applied to the empty store. -/
theorem addComment_roundtrip_witness :
    (∃ r ∈ getFileComments
        (addComment ⟨[], [], [], [], []⟩ "a.md" roundtripHighlight none 7)
        "a.md",
      r.id = roundtripHighlight.id ∧ r.text = roundtripHighlight.text ∧
        r.position = roundtripHighlight.position) ∧
    (∀ r ∈ getFileComments
        (removeComment
          (addComment ⟨[], [], [], [], []⟩ "a.md" roundtripHighlight none 7)
          "a.md" roundtripHighlight) "a.md",
      r.id ≠ roundtripHighlight.id) :=
  addComment_roundtrip ⟨[], [], [], [], []⟩ "a.md" roundtripHighlight none 7
    (fun path m hm => by simp [aget] at hm)

/-! ## Claim C6 -/

/-- C6: `updateComment` (the spec's `addCommentToHighlight`) with an id
absent from the document leaves the whole store unchanged without failing;
with an existing id it appends exactly one fresh `CommentItem` carrying the
given content to the end of the highlight's comment sequence and sets the
highlight's `updatedAt` to the current time, which strictly increases it
whenever the clock has advanced past the stored timestamp. -/
theorem addCommentToHighlight_spec (s : CommentStore)
    (path highlightId content : String) (now : Nat) :
    ((aget s.data path).bind (fun m => aget m highlightId) = none →
        updateComment s path highlightId content now = s) ∧
    (∀ h, (aget s.data path).bind (fun m => aget m highlightId) = some h →
        ∃ r, aget ((aget (updateComment s path highlightId content now).data
              path).getD []) highlightId = some r ∧
          r.comments = h.comments ++
            [{ id := "comment-" ++ toString now, content := content,
               createdAt := now, updatedAt := now }] ∧
          r.updatedAt = now ∧
          (h.updatedAt < now → h.updatedAt < r.updatedAt)) := by
  constructor
  · intro hn
    unfold updateComment
    rw [hn]
  · intro h hsome
    unfold updateComment
    rw [hsome]
    refine ⟨{ h with
        comments := h.comments ++
          [{ id := "comment-" ++ toString now, content := content,
             createdAt := now, updatedAt := now }]
        updatedAt := now }, ?_, rfl, rfl, fun hlt => hlt⟩
    rw [aset_get_self]
    simp only [Option.getD_some]
    exact aset_get_self _ _ _

/-- A store with one highlight (last touched at time 0) for the C6 witness. -/
def witnessStoreC6 : CommentStore :=
  { data := [("a.md", [("h1", roundtripHighlight)])]
    fileCommentsData := []
    fileComments := []
    comments := []
    commentCache := [] }

/-- C6 witness: appending at time 5 to a highlight last updated at time 0. -/
theorem addCommentToHighlight_spec_witness :
    ∃ r, aget ((aget (updateComment witnessStoreC6 "a.md" "h1" "hi" 5).data
          "a.md").getD []) "h1" = some r ∧
      r.comments = roundtripHighlight.comments ++
        [{ id := "comment-5", content := "hi", createdAt := 5,
           updatedAt := 5 }] ∧
      r.updatedAt = 5 ∧ roundtripHighlight.updatedAt < r.updatedAt := by
  obtain ⟨r, h1, h2, h3, h4⟩ :=
    (addCommentToHighlight_spec witnessStoreC6 "a.md" "h1" "hi" 5).2
      roundtripHighlight (by decide)
  exact ⟨r, h1, by simpa using h2, h3, h4 (by decide)⟩

/-! ## Claim C7 -/

theorem pruneCache_length (cache : AList (List HighlightComment)) :
    (pruneCache cache).length ≤ maxCacheSize := by
  unfold pruneCache
  split
  · next h =>
      rw [List.length_drop]
      omega
  · next h => omega

/-- C7: after any finite sequence of `loadVisibleComments` calls (the spec's
`refreshVisibleParagraphCache`), a cache that started within the cap of 100
entries stays within it, and eviction removes exactly the oldest-inserted
entries: when the cap is exceeded, pruning drops the first
`size - 100` entries in insertion order. -/
theorem visibleCache_bounded (calls : List (Option String × List String))
    (s : CommentStore) (hs : s.commentCache.length ≤ maxCacheSize) :
    ((calls.foldl (fun st c => loadVisibleComments st c.1 c.2)
        s).commentCache.length ≤ maxCacheSize) ∧
    (∀ cache : AList (List HighlightComment), maxCacheSize < cache.length →
      pruneCache cache = cache.drop (cache.length - maxCacheSize)) := by
  constructor
  · induction calls generalizing s with
    | nil => exact hs
    | cons c cs ih =>
        show (cs.foldl (fun st c => loadVisibleComments st c.1 c.2)
          (loadVisibleComments s c.1 c.2)).commentCache.length ≤ maxCacheSize
        apply ih
        cases hcf : c.1 with
        | none => simpa [loadVisibleComments, hcf] using hs
        | some f =>
            simp only [loadVisibleComments, hcf]
            exact pruneCache_length _
  · intro cache hc
    unfold pruneCache
    rw [if_pos]
    exact hc

/-- C7 witness: the bound applied to the empty store and one refresh call. -/
theorem visibleCache_bounded_witness :
    (([((some "f.md" : Option String), ["p1"])].foldl
        (fun st c => loadVisibleComments st c.1 c.2)
        ⟨[], [], [], [], []⟩).commentCache.length ≤ maxCacheSize) :=
  (visibleCache_bounded [(some "f.md", ["p1"])] ⟨[], [], [], [], []⟩
    (by decide)).1

/-! ## Claim C8 -/

theorem fileCommentsLt_asymm (a b : HighlightComment)
    (h : fileCommentsLt a b = true) : fileCommentsLt b a = false := by
  unfold fileCommentsLt at h ⊢
  cases ha : a.isVirtual <;> cases hb : b.isVirtual <;> simp_all <;> omega

theorem fileCommentsLt_trans_neg (a b c : HighlightComment)
    (h1 : fileCommentsLt b a = false) (h2 : fileCommentsLt c b = false) :
    fileCommentsLt c a = false := by
  unfold fileCommentsLt at h1 h2 ⊢
  cases ha : a.isVirtual <;> cases hb : b.isVirtual <;>
    cases hc : c.isVirtual <;> simp_all <;> omega

theorem fileCommentsLt_false_elim (a b : HighlightComment)
    (h : fileCommentsLt b a = false) :
    (b.isVirtual = true → a.isVirtual = true) ∧
    (a.isVirtual = b.isVirtual → a.position ≤ b.position) := by
  unfold fileCommentsLt at h
  cases ha : a.isVirtual <;> cases hb : b.isVirtual <;> simp_all

/-- Two virtual highlights for the same document, inserted in the order
`"a"` (position 5) then `"b"` (position 2). -/
def virtualFirstInserted : HighlightComment :=
  { id := "a", text := "ta", position := 5, paragraphId := "p",
    comments := [], createdAt := 0, updatedAt := 0, isVirtual := true }

def virtualSecondInserted : HighlightComment :=
  { id := "b", text := "tb", position := 2, paragraphId := "p",
    comments := [], createdAt := 0, updatedAt := 0, isVirtual := true }

def virtualPairStore : CommentStore :=
  { data := [("f.md", [("a", virtualFirstInserted),
      ("b", virtualSecondInserted)])]
    fileCommentsData := []
    fileComments := []
    comments := []
    commentCache := [] }

/-- C8 counterexample: both stored highlights are virtual and were inserted
in the order `"a"`, `"b"`, yet `getFileComments` returns `"b"` first — the
comparator falls through to `a.position - b.position` for two virtual
entries, so virtual highlights are ordered by position, not by original
insertion. -/
theorem getFileComments_virtual_insertion_cex :
    avalues ((aget virtualPairStore.data "f.md").getD []) =
      [virtualFirstInserted, virtualSecondInserted] ∧
    virtualFirstInserted.isVirtual = true ∧
    virtualSecondInserted.isVirtual = true ∧
    (getFileComments virtualPairStore "f.md").map (fun h => h.id) =
      ["b", "a"] := by
  refine ⟨by decide, by decide, by decide, by decide⟩

/-- C8 (amended): `getFileComments` returns a permutation of the document's
stored records in which every virtual highlight precedes every non-virtual
one and, within each of the two groups, records are ordered by ascending
position; only records agreeing on both virtuality and position keep their
original insertion order (the sort is stable). -/
theorem getFileComments_order (s : CommentStore) (path : String) :
    (getFileComments s path).Perm (avalues ((aget s.data path).getD [])) ∧
    (getFileComments s path).Pairwise (fun a b =>
      (b.isVirtual = true → a.isVirtual = true) ∧
      (a.isVirtual = b.isVirtual → a.position ≤ b.position)) ∧
    (∀ (v : Bool) (p : Nat),
      (getFileComments s path).filter
          (fun h => h.isVirtual == v && h.position == p) =
        (avalues ((aget s.data path).getD [])).filter
          (fun h => h.isVirtual == v && h.position == p)) := by
  refine ⟨insSort_perm _ _, ?_, ?_⟩
  · have hp := pairwise_insSort fileCommentsLt fileCommentsLt_asymm
      fileCommentsLt_trans_neg (avalues ((aget s.data path).getD []))
    exact hp.imp (fun hab => fileCommentsLt_false_elim _ _ hab)
  · intro v p
    apply filter_insSort
    intro a b ha hb
    rw [Bool.and_eq_true] at ha hb
    have hav : a.isVirtual = v := by simpa using ha.1
    have hbv : b.isVirtual = v := by simpa using hb.1
    have hap : a.position = p := by simpa using ha.2
    have hbp : b.position = p := by simpa using hb.2
    unfold fileCommentsLt
    rw [hav, hbv, hap, hbp]
    simp

/-- C8 witness: the amended ordering applied to the concrete two-virtual
store: `"b"` (position 2) is listed before `"a"` (position 5). -/
theorem getFileComments_order_witness :
    (getFileComments virtualPairStore "f.md").Pairwise (fun a b =>
      (b.isVirtual = true → a.isVirtual = true) ∧
      (a.isVirtual = b.isVirtual → a.position ≤ b.position)) :=
  (getFileComments_order virtualPairStore "f.md").2.1

/-! ## Claim C10 -/

/-- C10: `batchUpdateComments` writes only the derived in-memory `comments`
index: every query — highlight listing, file-only comments, paragraph-scoped
lookup, paragraph-emptiness — and the payload handed to the next save are
identical before and after the call, for every store state and update
list. -/
theorem batchUpdateComments_frame (s : CommentStore)
    (updates : List (String × HighlightComment)) (path paragraphId : String) :
    getFileComments (batchUpdateComments s updates) path =
      getFileComments s path ∧
    getFileOnlyComments (batchUpdateComments s updates) path =
      getFileOnlyComments s path ∧
    getCommentsByParagraphId (batchUpdateComments s updates) path paragraphId =
      getCommentsByParagraphId s path paragraphId ∧
    hasParagraphComments (batchUpdateComments s updates) path paragraphId =
      hasParagraphComments s path paragraphId ∧
    savePayload (batchUpdateComments s updates) = savePayload s :=
  ⟨rfl, rfl, rfl, rfl, rfl⟩

/-- C10 witness: the frame property at a concrete store and update list. -/
theorem batchUpdateComments_frame_witness :
    savePayload (batchUpdateComments virtualPairStore
      [("x", virtualFirstInserted)]) = savePayload virtualPairStore :=
  (batchUpdateComments_frame virtualPairStore [("x", virtualFirstInserted)]
    "f.md" "p").2.2.2.2

end HiNote
